import Mathlib

/-!
Shallow embedding of the core of `src/main.py`: the phonemic segmentation
engine (`next_segment`, `segment_word`) and the n-gram information model
(`SegmentSummary` with `add`, `add_all`, `segment_bytes`, `bytes`).

Python strings are modelled as `List Char`; Python `dict`s are modelled as
association lists with unique keys, whose update function (`setA`) mirrors
`dict` semantics (update in place, new keys appended at the end).  A Python
`KeyError` escaping a function is modelled by `Option`: `none` means the
call raised.  Python floats are modelled by real numbers.
-/

namespace LID

/-- A segment value: the Python `str` held in `Segment.value`. -/
abbrev Val := List Char

/-- A context key: the Python `tuple` of segment values. -/
abbrev Ctx := List Val

/-- Python `@dataclass class Segment`: `value: str`, `word_position: int | None`. -/
structure Segment where
  value : Val
  word_position : Option Nat
deriving DecidableEq, Repr

/-- Python `EDGE_SEGMENT = Segment("#", None)` (src/main.py line 279). -/
def EDGE_SEGMENT : Segment := ⟨['#'], none⟩

/-- Association-list lookup, modelling Python `d[k]` / `d.get(k)`:
`none` models a missing key. -/
def lookupA {α β : Type} [DecidableEq α] : List (α × β) → α → Option β
  | [], _ => none
  | (k, v) :: rest, a => if a = k then some v else lookupA rest a

/-- Association-list store, modelling Python `d[k] = v`: an existing key is
updated in place, a new key is appended at the end (Python dict order). -/
def setA {α β : Type} [DecidableEq α] : List (α × β) → α → β → List (α × β)
  | [], k, v => [(k, v)]
  | (k0, v0) :: rest, k, v =>
    if k = k0 then (k, v) :: rest else (k0, v0) :: setA rest k v

/-- Python `@dataclass class LanguageSpecification` (src/main.py lines 10-17). -/
structure LanguageSpecification where
  name : String
  iso : String
  funny_words : List (Val × Val)
  replacement_rules : List (Val × Val)
  multigraphs : List Val
  silent_segments : List Val

/-- One left-to-right pass of Python `str.replace` for a non-empty pattern
`pat`: at each position, if `pat` starts there, emit `repl` and skip the
match, otherwise keep one character.  The fuel argument only forces
termination; every step consumes at least one character of `s`, so fuel
`s.length` is enough. -/
def replFuel (pat repl : List Char) : Nat → List Char → List Char
  | _, [] => []
  | 0, s => s
  | fuel + 1, c :: rest =>
    if (List.take pat.length (c :: rest)) = pat then
      repl ++ replFuel pat repl fuel (rest.drop (pat.length - 1))
    else
      c :: replFuel pat repl fuel rest

/-- Python `s.replace(pat, repl)`: non-overlapping left-to-right replacement.
An empty pattern inserts `repl` before every character and at the end,
exactly as Python does (`"ab".replace("", "x") == "xaxbx"`). -/
def pyReplace (s pat repl : List Char) : List Char :=
  match pat with
  | [] => repl ++ List.foldr (fun c acc => c :: (repl ++ acc)) [] s
  | _ :: _ => replFuel pat repl s.length s

/-- Python `next_segment(multigraphs, word, i)` (src/main.py lines 129-133): return
the first multigraph that matches `word` at position `i`, else the single
character `word[i]` (modelled as the one-character slice at `i`). -/
def next_segment (multigraphs : List Val) (word : List Char) (i : Nat) : Val :=
  match multigraphs with
  | [] => List.take 1 (word.drop i)
  | m :: rest =>
    if List.take m.length (word.drop i) = m then m
    else next_segment rest word i

/-- The `while i < len(word)` loop of `segment_word` (src/main.py lines
141-148): match a segment at the cursor, advance by its length, and append
non-silent segments with `word_position = len(segments)`.  The fuel argument
only forces termination; each iteration advances the cursor by at least one
(the `seg.length = 0` guard cuts off the case in which the Python loop would
run forever, reachable only when a multigraph is the empty string), so fuel
`word.length` is enough starting from `i = 0`. -/
def segmentLoopFuel (mg silent : List Val) (word : List Char) :
    Nat → Nat → List Segment → List Segment
  | 0, _, acc => acc
  | fuel + 1, i, acc =>
    if i < word.length then
      let seg := next_segment mg word i
      if seg.length = 0 then acc
      else
        segmentLoopFuel mg silent word fuel (i + seg.length)
          (if seg ∈ silent then acc else acc ++ [⟨seg, some acc.length⟩])
    else acc

/-- Python `segment_word(lang, word)` (src/main.py lines 136-149): whole-word
override, then the substitution rules folded in list order, then the
tokenization loop. -/
def segment_word (lang : LanguageSpecification) (word : List Char) : List Segment :=
  let word1 := (lookupA lang.funny_words word).getD word
  let word2 := lang.replacement_rules.foldl (fun w r => pyReplace w r.1 r.2) word1
  segmentLoopFuel lang.multigraphs lang.silent_segments word2 word2.length 0 []

/-- Python `class SegmentSummary`: `self.ngram_continuations: dict[tuple, dict[str, int]]`. -/
structure SegmentSummary where
  ngram_continuations : List (Ctx × List (Val × Nat))
deriving DecidableEq, Repr

/-- Python `SegmentSummary.__init__` (src/main.py lines 283-284). -/
def SegmentSummary.empty : SegmentSummary := ⟨[]⟩

/-- The body of the `for` loop of `SegmentSummary.add` (src/main.py lines
291-293): create the outer entry when `start` is absent, then increment
`continuations[start][segment]`, defaulting the count to `0`. -/
def bumpTable (t : List (Ctx × List (Val × Nat))) (start : Ctx) (segment : Val) :
    List (Ctx × List (Val × Nat)) :=
  let t1 := if lookupA t start = none then setA t start [] else t
  let d := (lookupA t1 start).getD []
  setA t1 start (setA d segment ((lookupA d segment).getD 0 + 1))

/-- Python `SegmentSummary.add(segments, n)` (src/main.py lines 286-293): pad with
`n` leading edge values and one trailing edge value, then for each
`i in range(len(segments))` count `padded[i+n]` after context `padded[i:i+n]`. -/
def SegmentSummary.add (ss : SegmentSummary) (segments : List Segment) (n : Nat) :
    SegmentSummary :=
  let swe : List Val :=
    List.replicate n EDGE_SEGMENT.value ++ segments.map Segment.value ++ [EDGE_SEGMENT.value]
  ⟨(List.range segments.length).foldl
    (fun t i => bumpTable t (List.take n (swe.drop i)) (swe.getD (i + n) EDGE_SEGMENT.value))
    ss.ngram_continuations⟩

/-- Python `SegmentSummary.add_all(segmented_words, n)` (src/main.py lines 295-297). -/
def SegmentSummary.add_all (ss : SegmentSummary) (segmented_words : List (List Segment))
    (n : Nat) : SegmentSummary :=
  segmented_words.foldl (fun s segments => s.add segments n) ss

/-- Python `sum(d.values())` for an inner count dictionary. -/
def sumCounts (d : List (Val × Nat)) : Nat := (d.map Prod.snd).sum

/-- Python `SegmentSummary.segment_bytes(segment, context)` (src/main.py lines
299-302): look up the context row, then the target's count, and return
`-log2(count / total)`.  `none` models the `KeyError` raised when the
context, or the target under it, was never observed. -/
noncomputable def SegmentSummary.segment_bytes (ss : SegmentSummary)
    (segment : Segment) (context : List Segment) : Option ℝ :=
  match lookupA ss.ngram_continuations (context.map Segment.value) with
  | none => none
  | some d =>
    match lookupA d segment.value with
    | none => none
    | some c => some (-Real.logb 2 ((c : ℝ) / (sumCounts d : ℝ)))

/-- Python `out += ...` where either side may have raised: a raised `KeyError`
propagates out of `SegmentSummary.bytes`. -/
noncomputable def optAdd (a b : Option ℝ) : Option ℝ :=
  match a, b with
  | some x, some y => some (x + y)
  | _, _ => none

/-- Python `SegmentSummary.bytes(segments, n)` (src/main.py lines 304-309): pad with
`n` leading edge segments and one trailing edge segment, then sum
`segment_bytes(padded[i+n], padded[i:i+n])` over `i in range(len(segments))`. -/
noncomputable def SegmentSummary.bytes (ss : SegmentSummary) (segments : List Segment)
    (n : Nat) : Option ℝ :=
  let swe : List Segment :=
    List.replicate n EDGE_SEGMENT ++ segments ++ [EDGE_SEGMENT]
  (List.range segments.length).foldl
    (fun out i =>
      optAdd out (ss.segment_bytes (swe.getD (i + n) EDGE_SEGMENT) (List.take n (swe.drop i))))
    (some 0)


/-! ### Association-list lemmas -/

theorem lookupA_setA_self {α β : Type} [DecidableEq α] (t : List (α × β)) (k : α) (v : β) :
    lookupA (setA t k v) k = some v := by
  induction t with
  | nil => simp [setA, lookupA]
  | cons p rest ih =>
    obtain ⟨k0, v0⟩ := p
    by_cases h : k = k0
    · simp [setA, lookupA, h]
    · simp [setA, lookupA, h, ih]

theorem lookupA_setA_ne {α β : Type} [DecidableEq α] (t : List (α × β)) (k k' : α) (v : β)
    (h : k' ≠ k) : lookupA (setA t k v) k' = lookupA t k' := by
  induction t with
  | nil => simp [setA, lookupA, h]
  | cons p rest ih =>
    obtain ⟨k0, v0⟩ := p
    by_cases h0 : k = k0
    · subst h0
      simp [setA, lookupA, h]
    · by_cases h1 : k' = k0 <;> simp [setA, lookupA, h0, h1, ih]

theorem setA_ne_nil {α β : Type} [DecidableEq α] (t : List (α × β)) (k : α) (v : β) :
    setA t k v ≠ [] := by
  cases t with
  | nil => simp [setA]
  | cons p rest =>
    obtain ⟨k0, v0⟩ := p
    by_cases h : k = k0 <;> simp [setA, h]

theorem mem_setA {α β : Type} [DecidableEq α] {t : List (α × β)} {k : α} {v : β}
    {p : α × β} (hp : p ∈ setA t k v) : p = (k, v) ∨ p ∈ t := by
  induction t with
  | nil => simpa [setA] using hp
  | cons q rest ih =>
    obtain ⟨k0, v0⟩ := q
    by_cases h : k = k0
    · simp only [setA, if_pos h, List.mem_cons] at hp
      rcases hp with h1 | h1
      · exact Or.inl h1
      · exact Or.inr (List.mem_cons_of_mem _ h1)
    · simp only [setA, if_neg h, List.mem_cons] at hp
      rcases hp with h1 | h1
      · exact Or.inr (List.mem_cons.mpr (Or.inl h1))
      · rcases ih h1 with h2 | h2
        · exact Or.inl h2
        · exact Or.inr (List.mem_cons_of_mem _ h2)

theorem sumCounts_cons (k : Val) (c : Nat) (d : List (Val × Nat)) :
    sumCounts ((k, c) :: d) = c + sumCounts d := by
  simp [sumCounts]

theorem sumCounts_setA (d : List (Val × Nat)) (k : Val) (c : Nat) :
    sumCounts (setA d k c) + (lookupA d k).getD 0 = sumCounts d + c := by
  induction d with
  | nil => simp [setA, lookupA, sumCounts]
  | cons p rest ih =>
    obtain ⟨k0, v0⟩ := p
    by_cases h : k = k0
    · subst h
      simp [setA, lookupA, sumCounts_cons]
      omega
    · simp only [setA, if_neg h, lookupA, if_neg h, sumCounts_cons]
      omega

theorem lookupA_mem {α β : Type} [DecidableEq α] {d : List (α × β)} {k : α} {v : β}
    (h : lookupA d k = some v) : (k, v) ∈ d := by
  induction d with
  | nil => simp [lookupA] at h
  | cons p rest ih =>
    obtain ⟨k0, v0⟩ := p
    by_cases h0 : k = k0
    · subst h0
      simp only [lookupA, if_true, eq_self_iff_true, if_pos] at h
      rw [show v0 = v from by simpa using h]
      exact List.mem_cons_self _ _
    · simp only [lookupA, if_neg h0] at h
      exact List.mem_cons_of_mem _ (ih h)

theorem snd_le_sumCounts {d : List (Val × Nat)} {p : Val × Nat} (hp : p ∈ d) :
    p.2 ≤ sumCounts d := by
  induction d with
  | nil => simp at hp
  | cons q rest ih =>
    obtain ⟨k0, v0⟩ := q
    rcases List.mem_cons.mp hp with h | h
    · subst h
      simp [sumCounts_cons]
    · have := ih h
      simp only [sumCounts_cons]
      omega

theorem lookupA_le_sumCounts {d : List (Val × Nat)} {k : Val} {c : Nat}
    (h : lookupA d k = some c) : c ≤ sumCounts d :=
  snd_le_sumCounts (lookupA_mem h)

/-! ### Lemmas about `bumpTable` and context totals -/

/-- The total count stored under one context of a continuation table
(`0` when the context is absent). -/
def sumAt (t : List (Ctx × List (Val × Nat))) (ctx : Ctx) : Nat :=
  match lookupA t ctx with
  | some d => sumCounts d
  | none => 0

theorem bumpTable_eq (t : List (Ctx × List (Val × Nat))) (k : Ctx) (v : Val) :
    bumpTable t k v =
      setA (if lookupA t k = none then setA t k [] else t) k
        (setA ((lookupA t k).getD []) v
          ((lookupA ((lookupA t k).getD []) v).getD 0 + 1)) := by
  unfold bumpTable
  cases h : lookupA t k with
  | none => simp [h, lookupA_setA_self]
  | some d => simp [h]

theorem lookupA_bumpTable_self (t : List (Ctx × List (Val × Nat))) (k : Ctx) (v : Val) :
    lookupA (bumpTable t k v) k =
      some (setA ((lookupA t k).getD []) v
        ((lookupA ((lookupA t k).getD []) v).getD 0 + 1)) := by
  rw [bumpTable_eq]
  exact lookupA_setA_self _ _ _

theorem lookupA_bumpTable_ne (t : List (Ctx × List (Val × Nat))) (k k' : Ctx) (v : Val)
    (h : k' ≠ k) : lookupA (bumpTable t k v) k' = lookupA t k' := by
  rw [bumpTable_eq, lookupA_setA_ne _ _ _ _ h]
  cases h0 : lookupA t k with
  | none => simp [h0, lookupA_setA_ne _ _ _ _ h]
  | some d => simp [h0]

theorem sumAt_eq_sumCounts_getD (t : List (Ctx × List (Val × Nat))) (ctx : Ctx) :
    sumAt t ctx = sumCounts ((lookupA t ctx).getD []) := by
  unfold sumAt
  cases h : lookupA t ctx with
  | none => simp [sumCounts]
  | some d => simp

theorem sumAt_bumpTable_self (t : List (Ctx × List (Val × Nat))) (k : Ctx) (v : Val) :
    sumAt (bumpTable t k v) k = sumAt t k + 1 := by
  rw [sumAt_eq_sumCounts_getD, lookupA_bumpTable_self]
  have h := sumCounts_setA ((lookupA t k).getD []) v
    ((lookupA ((lookupA t k).getD []) v).getD 0 + 1)
  rw [sumAt_eq_sumCounts_getD]
  simp only [Option.getD_some]
  omega

theorem sumAt_bumpTable_ne (t : List (Ctx × List (Val × Nat))) (k k' : Ctx) (v : Val)
    (h : k' ≠ k) : sumAt (bumpTable t k v) k' = sumAt t k' := by
  unfold sumAt
  rw [lookupA_bumpTable_ne _ _ _ _ h]

theorem sumAt_foldl_bumpTable (l : List Nat) (w : Nat → Ctx) (v : Nat → Val)
    (t : List (Ctx × List (Val × Nat))) (ctx : Ctx) :
    sumAt (l.foldl (fun t0 i => bumpTable t0 (w i) (v i)) t) ctx
      = sumAt t ctx + (l.filter (fun i => decide (w i = ctx))).length := by
  induction l generalizing t with
  | nil => simp
  | cons j rest ih =>
    simp only [List.foldl_cons, List.filter_cons]
    by_cases h : w j = ctx
    · subst h
      rw [ih, sumAt_bumpTable_self]
      simp
      omega
    · simp only [decide_eq_true_eq, if_neg h]
      rw [ih, sumAt_bumpTable_ne _ _ _ _ (fun he => h he.symm)]

theorem lookupA_foldl_bumpTable_none (l : List Nat) (w : Nat → Ctx) (v : Nat → Val)
    (t : List (Ctx × List (Val × Nat))) (ctx : Ctx)
    (h0 : lookupA t ctx = none) (hw : ∀ i ∈ l, w i ≠ ctx) :
    lookupA (l.foldl (fun t0 i => bumpTable t0 (w i) (v i)) t) ctx = none := by
  induction l generalizing t with
  | nil => simpa using h0
  | cons j rest ih =>
    simp only [List.foldl_cons]
    refine ih _ ?_ (fun i hi => hw i (List.mem_cons_of_mem _ hi))
    rw [lookupA_bumpTable_ne]
    · exact h0
    · exact fun he => hw j (List.mem_cons_self _ _) he.symm

/-! ### The context windows and targets used by `add` and `bytes` -/

/-- The context slice `padded[i:i+n]` that `SegmentSummary.add` uses at loop
index `i` (the padded sequence has `n` leading and one trailing edge value). -/
def ctxWindow (segments : List Segment) (n i : Nat) : Ctx :=
  List.take n
    ((List.replicate n EDGE_SEGMENT.value ++ segments.map Segment.value
      ++ [EDGE_SEGMENT.value]).drop i)

/-- The target `padded[i+n]` that `SegmentSummary.add` uses at loop index `i`. -/
def tgtAt (segments : List Segment) (n i : Nat) : Val :=
  (List.replicate n EDGE_SEGMENT.value ++ segments.map Segment.value
    ++ [EDGE_SEGMENT.value]).getD (i + n) EDGE_SEGMENT.value

/-- How many loop indices of one `add(segments, n)` call use `ctx` as their
context window. -/
def ctxOccurrences (segments : List Segment) (n : Nat) (ctx : Ctx) : Nat :=
  ((List.range segments.length).filter
    (fun i => decide (ctxWindow segments n i = ctx))).length

theorem add_eq_foldl_bumpTable (ss : SegmentSummary) (segments : List Segment) (n : Nat) :
    ss.add segments n =
      ⟨(List.range segments.length).foldl
        (fun t i => bumpTable t (ctxWindow segments n i) (tgtAt segments n i))
        ss.ngram_continuations⟩ :=
  rfl

theorem sumAt_add (ss : SegmentSummary) (segments : List Segment) (n : Nat) (ctx : Ctx) :
    sumAt (ss.add segments n).ngram_continuations ctx
      = sumAt ss.ngram_continuations ctx + ctxOccurrences segments n ctx := by
  rw [add_eq_foldl_bumpTable]
  exact sumAt_foldl_bumpTable _ _ _ _ _

theorem sumAt_add_all (ss : SegmentSummary) (words : List (List Segment)) (n : Nat)
    (ctx : Ctx) :
    sumAt (ss.add_all words n).ngram_continuations ctx
      = sumAt ss.ngram_continuations ctx
        + (words.map (fun segs => ctxOccurrences segs n ctx)).sum := by
  induction words generalizing ss with
  | nil => simp [SegmentSummary.add_all]
  | cons segs rest ih =>
    have h1 : ss.add_all (segs :: rest) n = (ss.add segs n).add_all rest n := rfl
    rw [h1, ih, sumAt_add]
    simp
    omega

/-! ### The table invariant of reachable models -/

/-- Invariant of every continuation table reachable by training: every stored
row is non-empty and every stored count is at least `1`. -/
def TableInv (t : List (Ctx × List (Val × Nat))) : Prop :=
  ∀ ctx d, lookupA t ctx = some d → d ≠ [] ∧ ∀ p ∈ d, 1 ≤ p.2

theorem tableInv_bumpTable {t : List (Ctx × List (Val × Nat))} (k : Ctx) (v : Val)
    (h : TableInv t) : TableInv (bumpTable t k v) := by
  intro ctx d hd
  by_cases hc : ctx = k
  · subst hc
    rw [lookupA_bumpTable_self] at hd
    have hd' := (Option.some.injEq _ _).mp hd
    subst hd'
    refine ⟨setA_ne_nil _ _ _, fun p hp => ?_⟩
    rcases mem_setA hp with h1 | h1
    · subst h1
      simp
    · cases h2 : lookupA t ctx with
      | none =>
        rw [h2] at h1
        simp at h1
      | some d1 =>
        rw [h2] at h1
        exact (h ctx d1 h2).2 p (by simpa using h1)
  · rw [lookupA_bumpTable_ne _ _ _ _ hc] at hd
    exact h ctx d hd

theorem tableInv_foldl_bumpTable (l : List Nat) (w : Nat → Ctx) (v : Nat → Val)
    {t : List (Ctx × List (Val × Nat))} (h : TableInv t) :
    TableInv (l.foldl (fun t0 i => bumpTable t0 (w i) (v i)) t) := by
  induction l generalizing t with
  | nil => simpa using h
  | cons j rest ih =>
    simp only [List.foldl_cons]
    exact ih (tableInv_bumpTable _ _ h)

theorem tableInv_add {ss : SegmentSummary} (segments : List Segment) (n : Nat)
    (h : TableInv ss.ngram_continuations) :
    TableInv (ss.add segments n).ngram_continuations := by
  rw [add_eq_foldl_bumpTable]
  exact tableInv_foldl_bumpTable _ _ _ h

theorem tableInv_empty : TableInv SegmentSummary.empty.ngram_continuations := by
  intro ctx d hd
  simp [SegmentSummary.empty, lookupA] at hd

theorem tableInv_reachable (calls : List (List Segment × Nat)) :
    TableInv
      ((calls.foldl (fun ss c => ss.add c.1 c.2)
        SegmentSummary.empty).ngram_continuations) := by
  suffices h : ∀ (ss : SegmentSummary), TableInv ss.ngram_continuations →
      TableInv ((calls.foldl (fun ss c => ss.add c.1 c.2) ss).ngram_continuations) from
    h _ tableInv_empty
  induction calls with
  | nil => exact fun ss hss => hss
  | cons c rest ih =>
    intro ss hss
    exact ih _ (tableInv_add _ _ hss)

theorem sumCounts_pos {d : List (Val × Nat)} (hne : d ≠ [])
    (h1 : ∀ p ∈ d, 1 ≤ p.2) : 0 < sumCounts d := by
  cases d with
  | nil => exact absurd rfl hne
  | cons p rest =>
    obtain ⟨k0, v0⟩ := p
    have := h1 (k0, v0) (List.mem_cons_self _ _)
    simp only [sumCounts_cons]
    omega

/-! ### Absent contexts stay absent -/

theorem lookupA_add_none {ss : SegmentSummary} {segments : List Segment} {n : Nat}
    {ctx : Ctx} (h0 : lookupA ss.ngram_continuations ctx = none)
    (hocc : ctxOccurrences segments n ctx = 0) :
    lookupA (ss.add segments n).ngram_continuations ctx = none := by
  rw [add_eq_foldl_bumpTable]
  refine lookupA_foldl_bumpTable_none _ _ _ _ _ h0 fun i hi he => ?_
  have hnil : ((List.range segments.length).filter
      (fun i => decide (ctxWindow segments n i = ctx))) = [] :=
    List.length_eq_zero.mp hocc
  have := (List.filter_eq_nil_iff.mp hnil) i hi
  simp [he] at this

theorem lookupA_add_all_none {ss : SegmentSummary} {words : List (List Segment)} {n : Nat}
    {ctx : Ctx} (h0 : lookupA ss.ngram_continuations ctx = none)
    (hocc : ∀ segs ∈ words, ctxOccurrences segs n ctx = 0) :
    lookupA (ss.add_all words n).ngram_continuations ctx = none := by
  induction words generalizing ss with
  | nil => simpa [SegmentSummary.add_all] using h0
  | cons segs rest ih =>
    have h1 : ss.add_all (segs :: rest) n = (ss.add segs n).add_all rest n := rfl
    rw [h1]
    exact ih (lookupA_add_none h0 (hocc segs (List.mem_cons_self _ _)))
      (fun s hs => hocc s (List.mem_cons_of_mem _ hs))

/-! ### Concrete fixtures used by claim witnesses -/

/-- The first segment of the spec scenario word `["a", "b"]`. -/
def segA : Segment := ⟨['a'], some 0⟩

/-- The second segment of the spec scenario word `["a", "b"]`. -/
def segB : Segment := ⟨['b'], some 1⟩

/-- An order-1 model trained on the single segment sequence `["a", "b"]`. -/
def mdlAB : SegmentSummary := SegmentSummary.empty.add [segA, segB] 1

/-! ### Claims -/

/-- Claim C6: count conservation.  Training is additive: one `add(segments, n)`
call raises the total stored under every context by exactly the number of loop
indices whose context window is that context; consequently, for a model built
by `add_all` from a fresh summary, the sum of the counts stored under any
present context equals the number of times that context occurred as a context
window across all training calls. -/
theorem claim_C6_count_conservation :
    (∀ (ss : SegmentSummary) (segments : List Segment) (n : Nat) (ctx : Ctx),
      sumAt (ss.add segments n).ngram_continuations ctx
        = sumAt ss.ngram_continuations ctx + ctxOccurrences segments n ctx)
    ∧ (∀ (words : List (List Segment)) (n : Nat) (ctx : Ctx) (d : List (Val × Nat)),
      lookupA (SegmentSummary.empty.add_all words n).ngram_continuations ctx = some d →
      sumCounts d = (words.map (fun segs => ctxOccurrences segs n ctx)).sum) := by
  refine ⟨sumAt_add, fun words n ctx d hd => ?_⟩
  have h := sumAt_add_all SegmentSummary.empty words n ctx
  have h0 : sumAt SegmentSummary.empty.ngram_continuations ctx = 0 := rfl
  rw [h0] at h
  unfold sumAt at h
  rw [hd] at h
  simpa using h

/-- Witness for claim C6 at the concrete order-1 model trained on `["a", "b"]`
and the context `("a",)`: the stored row is `{"b": 1}` and the context occurred
once. -/
theorem claim_C6_witness :
    sumCounts [(['b'], 1)]
      = ([[segA, segB]].map (fun segs => ctxOccurrences segs 1 [['a']])).sum :=
  claim_C6_count_conservation.2 [[segA, segB]] 1 [['a']] [(['b'], 1)] (by decide)

/-- Claim C9: in every model state reachable by `add` calls from a fresh
`SegmentSummary`, every present context maps to a non-empty row whose counts
are all at least `1`, so the denominator `sum(d.values())` of `segment_bytes`
is strictly positive whenever the context lookup succeeds. -/
theorem claim_C9_reachable_counts_positive :
    ∀ (calls : List (List Segment × Nat)) (ctx : Ctx) (d : List (Val × Nat)),
      lookupA ((calls.foldl (fun ss c => ss.add c.1 c.2)
          SegmentSummary.empty).ngram_continuations) ctx = some d →
      d ≠ [] ∧ (∀ p ∈ d, 1 ≤ p.2) ∧ 0 < sumCounts d := by
  intro calls ctx d hd
  have h := tableInv_reachable calls ctx d hd
  exact ⟨h.1, h.2, sumCounts_pos h.1 h.2⟩

/-- Witness for claim C9 at the model reachable by one call `add(["a","b"], 1)`
and the context `("a",)`. -/
theorem claim_C9_witness :
    ([(['b'], 1)] : List (Val × Nat)) ≠ []
      ∧ (∀ p ∈ ([(['b'], 1)] : List (Val × Nat)), 1 ≤ p.2)
      ∧ 0 < sumCounts [(['b'], 1)] :=
  claim_C9_reachable_counts_positive [([segA, segB], 1)] [['a']] [(['b'], 1)] (by decide)

/-- Claim C7: `segment_bytes` on an absent context, or on a present context
with an absent target value, raises (modelled by `none`) and never returns a
numeric value; in particular querying a context that never occurred as a
context window of any training call raises. -/
theorem claim_C7_unobserved_raises :
    (∀ (ss : SegmentSummary) (seg : Segment) (context : List Segment),
      lookupA ss.ngram_continuations (context.map Segment.value) = none →
      ss.segment_bytes seg context = none)
    ∧ (∀ (ss : SegmentSummary) (seg : Segment) (context : List Segment)
        (d : List (Val × Nat)),
      lookupA ss.ngram_continuations (context.map Segment.value) = some d →
      lookupA d seg.value = none →
      ss.segment_bytes seg context = none)
    ∧ (∀ (words : List (List Segment)) (n : Nat) (seg : Segment)
        (context : List Segment),
      (∀ segs ∈ words, ctxOccurrences segs n (context.map Segment.value) = 0) →
      (SegmentSummary.empty.add_all words n).segment_bytes seg context = none) := by
  refine ⟨?_, ?_, ?_⟩
  · intro ss seg context h
    simp [SegmentSummary.segment_bytes, h]
  · intro ss seg context d h1 h2
    simp [SegmentSummary.segment_bytes, h1, h2]
  · intro words n seg context h
    have h0 : lookupA SegmentSummary.empty.ngram_continuations
        (context.map Segment.value) = none := rfl
    have h1 := lookupA_add_all_none h0 h
    simp [SegmentSummary.segment_bytes, h1]

/-- Witness for claim C7: after training only on `["a", "b"]` at order 1,
querying a segment after the never-observed context `("z",)` raises. -/
theorem claim_C7_witness :
    (SegmentSummary.empty.add_all [[segA, segB]] 1).segment_bytes ⟨['z'], some 0⟩
      [⟨['z'], some 0⟩] = none :=
  claim_C7_unobserved_raises.2.2 [[segA, segB]] 1 ⟨['z'], some 0⟩ [⟨['z'], some 0⟩]
    (by decide)

/-- Claim C10: training on an empty segment sequence is a no-op (the
continuation table, and hence the whole summary, is unchanged: in particular no
sentinel-only n-gram is recorded), and the cost of an empty sequence is `0`. -/
theorem claim_C10_empty_training_noop :
    ∀ (ss : SegmentSummary) (n : Nat), ss.add [] n = ss ∧ ss.bytes [] n = some 0 :=
  fun _ _ => ⟨rfl, rfl⟩

/-- Claim C2: when the context row and the target count are both present,
`segment_bytes` returns `-log2(count / total)` with `total` the sum of the
row's counts; this value is non-negative, and it is exactly `0` when the
target's value is the unique observed continuation of the context.  In
particular, the order-1 model trained on `["a", "b"]` gives
`segment_bytes("b", ("a",)) = 0`. -/
theorem claim_C2_segment_cost_formula :
    (∀ (ss : SegmentSummary) (seg : Segment) (context : List Segment)
        (d : List (Val × Nat)) (c : Nat),
      lookupA ss.ngram_continuations (context.map Segment.value) = some d →
      lookupA d seg.value = some c →
      ss.segment_bytes seg context
          = some (-Real.logb 2 ((c : ℝ) / (sumCounts d : ℝ)))
        ∧ 0 ≤ -Real.logb 2 ((c : ℝ) / (sumCounts d : ℝ))
        ∧ (d = [(seg.value, c)] → ss.segment_bytes seg context = some 0))
    ∧ mdlAB.segment_bytes segB [segA] = some 0 := by
  constructor
  · intro ss seg context d c h1 h2
    refine ⟨by simp [SegmentSummary.segment_bytes, h1, h2], ?_, ?_⟩
    · have hc : c ≤ sumCounts d := lookupA_le_sumCounts h2
      rcases Nat.eq_zero_or_pos (sumCounts d) with hs | hs
      · have hc0 : c = 0 := by omega
        rw [hc0, hs]
        norm_num [Real.logb_zero]
      · have hle : ((c : ℝ) / (sumCounts d : ℝ)) ≤ 1 := by
          rw [div_le_one (by exact_mod_cast hs)]
          exact_mod_cast hc
        have h0 : (0 : ℝ) ≤ (c : ℝ) / (sumCounts d : ℝ) :=
          div_nonneg (by positivity) (by positivity)
        have hlog := Real.logb_nonpos (b := 2) (by norm_num) h0 hle
        linarith
    · intro hd
      subst hd
      have hsum : sumCounts [(seg.value, c)] = c := by simp [sumCounts]
      rcases Nat.eq_zero_or_pos c with hc0 | hc0
      · subst hc0
        simp [SegmentSummary.segment_bytes, h1, h2, hsum, Real.logb_zero]
      · have hne : ((c : ℝ)) ≠ 0 := by
          exact_mod_cast Nat.pos_iff_ne_zero.mp hc0
        simp [SegmentSummary.segment_bytes, h1, h2, hsum, div_self hne, Real.logb_one]
  · simp [SegmentSummary.segment_bytes, mdlAB, SegmentSummary.add, SegmentSummary.empty,
      bumpTable, lookupA, setA, sumCounts, List.range_succ, EDGE_SEGMENT, segA, segB]

/-- Witness for claim C2 at the order-1 model trained on `["a", "b"]`: the row
of context `("a",)` is `{"b": 1}`, so the cost of `"b"` after `("a",)` is
`-log2(1/1) = 0`. -/
theorem claim_C2_witness :
    mdlAB.segment_bytes segB [segA]
        = some (-Real.logb 2 (((1 : Nat) : ℝ) / ((sumCounts [(['b'], 1)] : Nat) : ℝ)))
      ∧ mdlAB.segment_bytes segB [segA] = some 0 :=
  ⟨(claim_C2_segment_cost_formula.1 mdlAB segB [segA] [(['b'], 1)] 1
      (by decide) (by decide)).1,
    (claim_C2_segment_cost_formula.1 mdlAB segB [segA] [(['b'], 1)] 1
      (by decide) (by decide)).2.2 rfl⟩

/-! ### Claim C1: the trailing edge sentinel is inert -/

theorem foldl_congr_mem {α β : Type} {l : List β} {f g : α → β → α} {init : α}
    (h : ∀ a b, b ∈ l → f a b = g a b) : l.foldl f init = l.foldl g init := by
  induction l generalizing init with
  | nil => rfl
  | cons b rest ih =>
    simp only [List.foldl_cons]
    rw [h init b (List.mem_cons_self _ _)]
    exact ih fun a b0 hb0 => h a b0 (List.mem_cons_of_mem _ hb0)

theorem take_drop_dropLast {α : Type} (pre xs : List α) (x : α) (n i : Nat)
    (h : i + n ≤ (pre ++ xs).length) :
    List.take n ((pre ++ xs ++ [x]).drop i) = List.take n ((pre ++ xs).drop i) := by
  have h' : i + n ≤ pre.length + xs.length := by simpa using h
  rw [List.drop_append_of_le_length (by simp; omega : i ≤ (pre ++ xs).length)]
  rw [List.take_append_of_le_length (by simp [List.length_drop]; omega)]

theorem getD_dropLast {α : Type} (pre xs : List α) (x d : α) (j : Nat)
    (h : j < (pre ++ xs).length) :
    (pre ++ xs ++ [x]).getD j d = (pre ++ xs).getD j d := by
  rw [List.getD_eq_getElem?_getD, List.getD_eq_getElem?_getD, List.getElem?_append,
    if_pos h]

theorem getD_append_replicate {α : Type} (v : α) (xs : List α) (d : α) (n i : Nat) :
    (List.replicate n v ++ xs).getD (i + n) d = xs.getD i d := by
  rw [List.getD_eq_getElem?_getD, List.getD_eq_getElem?_getD,
    List.getElem?_append_right (by simp : (List.replicate n v).length ≤ i + n)]
  simp

/-- The context window that `add` and `bytes` use at an in-range loop index
never reaches the trailing edge sentinel. -/
def ctxWindowNT (segments : List Segment) (n i : Nat) : Ctx :=
  List.take n ((List.replicate n EDGE_SEGMENT.value ++ segments.map Segment.value).drop i)

/-- The segment-level context window of `bytes`, with no trailing sentinel. -/
def segCtxWindowNT (segments : List Segment) (n i : Nat) : List Segment :=
  List.take n ((List.replicate n EDGE_SEGMENT ++ segments).drop i)

theorem ctxWindow_eq_NT (segments : List Segment) (n i : Nat)
    (h : i ≤ segments.length) : ctxWindow segments n i = ctxWindowNT segments n i := by
  unfold ctxWindow ctxWindowNT
  exact take_drop_dropLast _ _ _ _ _ (by simp; omega)

theorem tgtAt_eq_value (segments : List Segment) (n i : Nat)
    (h : i < segments.length) :
    tgtAt segments n i = (segments.getD i EDGE_SEGMENT).value := by
  unfold tgtAt
  rw [getD_dropLast _ _ _ _ _ (by simp; omega), getD_append_replicate]
  rw [List.getD_eq_getElem?_getD, List.getD_eq_getElem?_getD, List.getElem?_map]
  cases h0 : segments[i]? with
  | none => simp [EDGE_SEGMENT]
  | some s => simp

theorem bytesWindow_eq_NT (segments : List Segment) (n i : Nat)
    (h : i ≤ segments.length) :
    List.take n ((List.replicate n EDGE_SEGMENT ++ segments ++ [EDGE_SEGMENT]).drop i)
      = segCtxWindowNT segments n i := by
  unfold segCtxWindowNT
  exact take_drop_dropLast _ _ _ _ _ (by simp; omega)

theorem bytesTgt_eq (segments : List Segment) (n i : Nat) (h : i < segments.length) :
    (List.replicate n EDGE_SEGMENT ++ segments ++ [EDGE_SEGMENT]).getD (i + n) EDGE_SEGMENT
      = segments.getD i EDGE_SEGMENT := by
  rw [getD_dropLast _ _ _ _ _ (by simp; omega), getD_append_replicate]

/-- Claim C1: training and scoring use the same asymmetric index bound.  Both
`add` and `bytes` iterate `i` over `range(len(segments))`, and on that range
their context `padded[i:i+n]` and target `padded[i+n]` never touch the single
trailing edge sentinel: both functions compute exactly what they would compute
from the padded sequence without its trailing sentinel, with the target at
index `i` being the `i`-th real segment — so the trailing sentinel is never
recorded as a continuation target in training and never charged as a target in
scoring. -/
theorem claim_C1_same_asymmetric_bound :
    ∀ (ss : SegmentSummary) (segments : List Segment) (n : Nat),
      ss.add segments n
          = ⟨(List.range segments.length).foldl
              (fun t i => bumpTable t (ctxWindowNT segments n i)
                ((segments.getD i EDGE_SEGMENT).value))
              ss.ngram_continuations⟩
        ∧ ss.bytes segments n
          = (List.range segments.length).foldl
              (fun out i => optAdd out
                (ss.segment_bytes (segments.getD i EDGE_SEGMENT)
                  (segCtxWindowNT segments n i)))
              (some 0) := by
  intro ss segments n
  constructor
  · rw [add_eq_foldl_bumpTable]
    refine congrArg SegmentSummary.mk (foldl_congr_mem fun t i hi => ?_)
    have hlt : i < segments.length := List.mem_range.mp hi
    rw [ctxWindow_eq_NT _ _ _ hlt.le, tgtAt_eq_value _ _ _ hlt]
  · show (List.range segments.length).foldl _ _ = _
    refine foldl_congr_mem fun out i hi => ?_
    have hlt : i < segments.length := List.mem_range.mp hi
    rw [bytesWindow_eq_NT _ _ _ hlt.le, bytesTgt_eq _ _ _ hlt]

/-! ### The segmentation pipeline, phase by phase -/

/-- Step 1 of `segment_word`: `lang.funny_words.get(word, word)`. -/
def applyOverride (fw : List (Val × Val)) (word : List Char) : List Char :=
  (lookupA fw word).getD word

/-- Step 2 of `segment_word`: the substitution rules folded in list order,
each rule applied to the previous rule's output. -/
def applyReplacements (rules : List (Val × Val)) (word : List Char) : List Char :=
  rules.foldl (fun w r => pyReplace w r.1 r.2) word

/-- The word after the whole-word override and all substitution rules. -/
def postSubWord (lang : LanguageSpecification) (word : List Char) : List Char :=
  applyReplacements lang.replacement_rules (applyOverride lang.funny_words word)

/-- The raw left-to-right tokenization: every matched segment in order,
silent ones included.  Same fuel discipline as `segmentLoopFuel`. -/
def rawSegmentsFuel (mg : List Val) (word : List Char) : Nat → Nat → List Val
  | 0, _ => []
  | fuel + 1, i =>
    if i < word.length then
      if (next_segment mg word i).length = 0 then []
      else
        next_segment mg word i
          :: rawSegmentsFuel mg word fuel (i + (next_segment mg word i).length)
    else []

/-- All segments matched while tokenizing `word`, silent ones included. -/
def rawTokenize (mg : List Val) (word : List Char) : List Val :=
  rawSegmentsFuel mg word word.length 0

/-- Step 4a of `segment_word`: drop the silent segment values. -/
def filterSilent (silent : List Val) (vals : List Val) : List Val :=
  vals.filter (fun v => decide (v ∉ silent))

/-- Step 4b of `segment_word`: attach positions `k, k+1, ...` to the kept
segment values. -/
def withPositionsFrom (k : Nat) : List Val → List Segment
  | [] => []
  | v :: rest => ⟨v, some k⟩ :: withPositionsFrom (k + 1) rest

theorem withPositionsFrom_map_value (k : Nat) (vals : List Val) :
    (withPositionsFrom k vals).map Segment.value = vals := by
  induction vals generalizing k with
  | nil => rfl
  | cons v rest ih => simp [withPositionsFrom, ih]

theorem withPositionsFrom_map_pos (k : Nat) (vals : List Val) :
    (withPositionsFrom k vals).map Segment.word_position
      = (List.range' k vals.length).map some := by
  induction vals generalizing k with
  | nil => rfl
  | cons v rest ih => simp [withPositionsFrom, List.range'_succ, ih]

theorem withPositionsFrom_length (k : Nat) (vals : List Val) :
    (withPositionsFrom k vals).length = vals.length := by
  induction vals generalizing k with
  | nil => rfl
  | cons v rest ih => simp [withPositionsFrom, ih]

theorem segmentLoopFuel_eq (mg silent : List Val) (word : List Char) :
    ∀ (fuel i : Nat) (acc : List Segment),
      segmentLoopFuel mg silent word fuel i acc
        = acc ++ withPositionsFrom acc.length
            (filterSilent silent (rawSegmentsFuel mg word fuel i)) := by
  intro fuel
  induction fuel with
  | zero =>
    intro i acc
    simp [segmentLoopFuel, rawSegmentsFuel, filterSilent, withPositionsFrom]
  | succ fuel ih =>
    intro i acc
    by_cases hlt : i < word.length
    · by_cases h0 : (next_segment mg word i).length = 0
      · simp [segmentLoopFuel, rawSegmentsFuel, hlt, h0, filterSilent, withPositionsFrom]
      · by_cases hs : next_segment mg word i ∈ silent
        · simp only [segmentLoopFuel, rawSegmentsFuel, if_pos hlt, if_neg h0, if_pos hs]
          rw [ih]
          simp [filterSilent, List.filter_cons, hs]
        · simp only [segmentLoopFuel, rawSegmentsFuel, if_pos hlt, if_neg h0, if_neg hs]
          rw [ih]
          simp [filterSilent, List.filter_cons, hs, withPositionsFrom,
            List.append_assoc]
    · simp [segmentLoopFuel, rawSegmentsFuel, hlt, filterSilent, withPositionsFrom]

theorem segment_word_eq_pipeline (lang : LanguageSpecification) (word : List Char) :
    segment_word lang word
      = withPositionsFrom 0 (filterSilent lang.silent_segments
          (rawTokenize lang.multigraphs (postSubWord lang word))) :=
  segmentLoopFuel_eq lang.multigraphs lang.silent_segments (postSubWord lang word)
    (postSubWord lang word).length 0 []

/-! ### Tokenization consumes the word exactly -/

theorem next_segment_take (mg : List Val) (word : List Char) (i : Nat) :
    List.take (next_segment mg word i).length (word.drop i) = next_segment mg word i := by
  induction mg with
  | nil =>
    show List.take (List.take 1 (word.drop i)).length (word.drop i)
      = List.take 1 (word.drop i)
    rw [List.length_take]
    exact List.take_eq_take.mpr (by omega)
  | cons m rest ih =>
    by_cases h : List.take m.length (word.drop i) = m
    · simp [next_segment, h]
    · simpa [next_segment, h] using ih

theorem next_segment_length_pos (mg : List Val) (word : List Char) (i : Nat)
    (hmg : ∀ m ∈ mg, m ≠ []) (h : i < word.length) :
    0 < (next_segment mg word i).length := by
  induction mg with
  | nil =>
    show 0 < (List.take 1 (word.drop i)).length
    rw [List.length_take, List.length_drop]
    omega
  | cons m rest ih =>
    by_cases hm : List.take m.length (word.drop i) = m
    · have hne := hmg m (List.mem_cons_self _ _)
      simpa [next_segment, hm] using List.length_pos.mpr hne
    · simpa [next_segment, hm] using
        ih fun m0 hm0 => hmg m0 (List.mem_cons_of_mem _ hm0)

theorem rawSegmentsFuel_flatten (mg : List Val) (word : List Char)
    (hmg : ∀ m ∈ mg, m ≠ []) :
    ∀ (fuel i : Nat), word.length - i ≤ fuel →
      (rawSegmentsFuel mg word fuel i).flatten = word.drop i := by
  intro fuel
  induction fuel with
  | zero =>
    intro i h
    rw [List.drop_eq_nil_of_le (by omega)]
    rfl
  | succ fuel ih =>
    intro i h
    by_cases hlt : i < word.length
    · have hpos := next_segment_length_pos mg word i hmg hlt
      simp only [rawSegmentsFuel, if_pos hlt, if_neg (by omega :
        ¬(next_segment mg word i).length = 0)]
      rw [List.flatten_cons, ih (i + (next_segment mg word i).length) (by omega)]
      conv_rhs => rw [← List.take_append_drop (next_segment mg word i).length (word.drop i)]
      rw [next_segment_take, List.drop_drop, Nat.add_comm]
    · simp only [rawSegmentsFuel, if_neg hlt]
      rw [List.drop_eq_nil_of_le (by omega)]
      rfl

/-! ### Concrete language fixtures -/

/-- Rules with the two chained substitution rules `("a","b")`, `("b","c")`. -/
def langAB : LanguageSpecification :=
  ⟨"sub-order", "sub", [], [(['a'], ['b']), (['b'], ['c'])], [], []⟩

/-- Rules with multigraphs `["ng", "n", "g"]`. -/
def langNG : LanguageSpecification :=
  ⟨"priority", "pri", [], [], [['n', 'g'], ['n'], ['g']], []⟩

/-- Rules with the single multigraph `"ch"`, no substitutions, nothing silent. -/
def langCH : LanguageSpecification :=
  ⟨"chacha", "cha", [], [], [['c', 'h']], []⟩

/-- Rules whose whole-word override rewrites the empty word to `"a"`. -/
def langC8 : LanguageSpecification :=
  ⟨"empty-override", "emp", [([], ['a'])], [], [], []⟩

/-! ### The segmenter claims -/

/-- Claim C3: `segment_word` applies its transformations in exactly the order
whole-word override, then the substitution rules in list order (each rule's
output feeding the next rule's input), then left-to-right tokenization, then
silence filtering with positions assigned to the kept segments; and the
chained rules `[("a","b"), ("b","c")]` applied to `"a"` yield the segment
`"c"`, not `"b"`. -/
theorem claim_C3_transformation_order :
    (∀ (lang : LanguageSpecification) (word : List Char),
      segment_word lang word
        = withPositionsFrom 0 (filterSilent lang.silent_segments
            (rawTokenize lang.multigraphs
              (applyReplacements lang.replacement_rules
                (applyOverride lang.funny_words word)))))
    ∧ segment_word langAB ['a'] = [⟨['c'], some 0⟩] :=
  ⟨fun lang word => segment_word_eq_pipeline lang word, by decide⟩

/-- Claim C4: at each cursor position the tokenizer takes the first multigraph
in listed order that matches the word at the cursor (`List.find?`), falling
back to the single character at the cursor — first match by priority order,
not longest match; with multigraphs `["ng","n","g"]` the input `"ng"` gives
the single segment `"ng"`. -/
theorem claim_C4_first_match_priority :
    (∀ (multigraphs : List Val) (word : List Char) (i : Nat),
      next_segment multigraphs word i
        = match multigraphs.find?
            (fun m => decide (List.take m.length (word.drop i) = m)) with
          | some m => m
          | none => List.take 1 (word.drop i))
    ∧ segment_word langNG ['n', 'g'] = [⟨['n', 'g'], some 0⟩] := by
  constructor
  · intro mgs word i
    induction mgs with
    | nil => rfl
    | cons m rest ih =>
      by_cases h : List.take m.length (word.drop i) = m
      · rw [List.find?_cons_of_pos _ (by simpa using h)]
        simp [next_segment, h]
      · rw [List.find?_cons_of_neg _ (by simpa using h)]
        simpa [next_segment, h] using ih
  · decide

/-- Claim C5: no output segment of `segment_word` has a silent value, and the
kept segments carry strictly increasing gap-free positions `0, 1, 2, ...` in
output order; the word `"chacha"` under multigraphs `["ch"]` yields
`["ch","a","ch","a"]` with positions `0,1,2,3`. -/
theorem claim_C5_silent_filtered_positions_gapfree :
    (∀ (lang : LanguageSpecification) (word : List Char),
      (∀ s ∈ segment_word lang word, s.value ∉ lang.silent_segments)
        ∧ (segment_word lang word).map Segment.word_position
          = (List.range (segment_word lang word).length).map some)
    ∧ segment_word langCH ['c', 'h', 'a', 'c', 'h', 'a']
      = [⟨['c', 'h'], some 0⟩, ⟨['a'], some 1⟩, ⟨['c', 'h'], some 2⟩,
          ⟨['a'], some 3⟩] := by
  constructor
  · intro lang word
    constructor
    · intro s hs
      rw [segment_word_eq_pipeline] at hs
      have hv : s.value ∈ filterSilent lang.silent_segments
          (rawTokenize lang.multigraphs (postSubWord lang word)) := by
        rw [← withPositionsFrom_map_value 0 (filterSilent lang.silent_segments
          (rawTokenize lang.multigraphs (postSubWord lang word)))]
        exact List.mem_map_of_mem _ hs
      have := List.of_mem_filter hv
      simpa using this
    · rw [segment_word_eq_pipeline, withPositionsFrom_map_pos,
        withPositionsFrom_length, List.range_eq_range']
  · decide

/-- Witness for claim C5 at `langCH` and the word `"chacha"`. -/
theorem claim_C5_witness :
    (∀ s ∈ segment_word langCH ['c', 'h', 'a', 'c', 'h', 'a'],
      s.value ∉ langCH.silent_segments)
      ∧ (segment_word langCH ['c', 'h', 'a', 'c', 'h', 'a']).map Segment.word_position
        = (List.range (segment_word langCH ['c', 'h', 'a', 'c', 'h', 'a']).length).map
            some :=
  claim_C5_silent_filtered_positions_gapfree.1 langCH ['c', 'h', 'a', 'c', 'h', 'a']

/-- Counterexample for claim C8 as stated: `langC8` has only non-empty
multigraphs (vacuously — it has none), yet `segment_word` on the empty word
returns a non-empty sequence, because the whole-word override rewrites the
empty word to `"a"`. -/
theorem claim_C8_counterexample :
    (∀ m ∈ langC8.multigraphs, m ≠ []) ∧ segment_word langC8 [] ≠ [] := by
  constructor
  · intro m hm
    simp [langC8] at hm
  · decide

/-- Claim C8 (amended): for rules whose multigraphs are all non-empty,
tokenization is total and the matched segments (kept plus silenced) partition
the post-substitution word — their concatenation is exactly that word, and the
kept output values are the silent-filtered matched segments; the empty word
yields the empty sequence provided the override and substitution rules leave
the empty word empty. -/
theorem claim_C8_amended_partition_total :
    ∀ (lang : LanguageSpecification) (word : List Char),
      (∀ m ∈ lang.multigraphs, m ≠ []) →
      (rawTokenize lang.multigraphs (postSubWord lang word)).flatten
          = postSubWord lang word
        ∧ (segment_word lang word).map Segment.value
          = filterSilent lang.silent_segments
              (rawTokenize lang.multigraphs (postSubWord lang word))
        ∧ (postSubWord lang [] = [] → segment_word lang [] = []) := by
  intro lang word hmg
  refine ⟨?_, ?_, ?_⟩
  · have h := rawSegmentsFuel_flatten lang.multigraphs (postSubWord lang word) hmg
      (postSubWord lang word).length 0 (by omega)
    simpa [rawTokenize] using h
  · rw [segment_word_eq_pipeline, withPositionsFrom_map_value]
  · intro h0
    rw [segment_word_eq_pipeline lang [], h0]
    rfl

/-- Witness for claim C8 (amended) at `langNG` (multigraphs `["ng","n","g"]`,
all non-empty) and the word `"ng"`. -/
theorem claim_C8_witness :
    (rawTokenize langNG.multigraphs (postSubWord langNG ['n', 'g'])).flatten
        = postSubWord langNG ['n', 'g']
      ∧ (segment_word langNG ['n', 'g']).map Segment.value
        = filterSilent langNG.silent_segments
            (rawTokenize langNG.multigraphs (postSubWord langNG ['n', 'g']))
      ∧ (postSubWord langNG [] = [] → segment_word langNG [] = []) :=
  claim_C8_amended_partition_total langNG ['n', 'g'] (by decide)

end LID
